import Mathlib

/-!
Verification of the `community-coin` blockchain core
(`src/community-coin/src/blockchain.rs`) against its natural-language
specification.

The Rust code is shallowly embedded: pure functions become Lean
functions, the `CommunityBlockchain` struct becomes an explicit `State`
threaded through the operations, `u64` arithmetic is modelled on `Nat`
(with truncated subtraction mirroring the one unchecked `-=`, and with
`% 2 ^ 32` where SHA-256 needs 32-bit wrap-around), fallible methods
return `Except`/`Option` paired with the post-state, and the wall
clock (`current_timestamp`) is an explicit `now : Nat` argument.
-/

/-! ## SHA-256 (the `sha2` crate's `Sha256` used by the source)

A byte is modelled as a `Nat` below 256; words are `Nat` reduced
`% 2 ^ 32`.  All recursions are structural so that every definition
evaluates inside the kernel. -/

def w32 : ℕ := 2 ^ 32

def rotr32 (n x : ℕ) : ℕ := ((x >>> n) ||| (x <<< (32 - n))) % w32

def shaCh (x y z : ℕ) : ℕ := (x &&& y) ^^^ ((x ^^^ (w32 - 1)) &&& z)

def shaMaj (x y z : ℕ) : ℕ := (x &&& y) ^^^ (x &&& z) ^^^ (y &&& z)

def bigS0 (x : ℕ) : ℕ := rotr32 2 x ^^^ rotr32 13 x ^^^ rotr32 22 x

def bigS1 (x : ℕ) : ℕ := rotr32 6 x ^^^ rotr32 11 x ^^^ rotr32 25 x

def smallS0 (x : ℕ) : ℕ := rotr32 7 x ^^^ rotr32 18 x ^^^ (x >>> 3)

def smallS1 (x : ℕ) : ℕ := rotr32 17 x ^^^ rotr32 19 x ^^^ (x >>> 10)

def shaK : List ℕ :=
  [1116352408, 1899447441, 3049323471, 3921009573, 961987163, 1508970993,
   2453635748, 2870763221, 3624381080, 310598401, 607225278, 1426881987,
   1925078388, 2162078206, 2614888103, 3248222580, 3835390401, 4022224774,
   264347078, 604807628, 770255983, 1249150122, 1555081692, 1996064986,
   2554220882, 2821834349, 2952996808, 3210313671, 3336571891, 3584528711,
   113926993, 338241895, 666307205, 773529912, 1294757372, 1396182291,
   1695183700, 1986661051, 2177026350, 2456956037, 2730485921, 2820302411,
   3259730800, 3345764771, 3516065817, 3600352804, 4094571909, 275423344,
   430227734, 506948616, 659060556, 883997877, 958139571, 1322822218,
   1537002063, 1747873779, 1955562222, 2024104815, 2227730452, 2361852424,
   2428436474, 2756734187, 3204031479, 3329325298]

def shaH0 : List ℕ :=
  [1779033703, 3144134277, 1013904242, 2773480762,
   1359893119, 2600822924, 528734635, 1541459225]

/-- One step of the message-schedule extension; the list holds the
schedule so far, newest word first. -/
def schedStep (w : List ℕ) : List ℕ :=
  ((smallS1 (w.getD 1 0) + w.getD 6 0 + smallS0 (w.getD 14 0) + w.getD 15 0) % w32) :: w

/-- Message schedule for one 64-byte chunk (16 words in), oldest word first. -/
def schedule (ws : List ℕ) : List ℕ :=
  (schedStep^[48] ws.reverse).reverse

/-- One round of the compression function. -/
def compressStep (kw : ℕ × ℕ) : List ℕ → List ℕ
  | [a, b, c, d, e, f, g, h] =>
    let t1 := (h + bigS1 e + shaCh e f g + kw.1 + kw.2) % w32
    let t2 := (bigS0 a + shaMaj a b c) % w32
    [(t1 + t2) % w32, a, b, c, (d + t1) % w32, e, f, g]
  | l => l

/-- Compress one 64-byte chunk into the running hash state. -/
def compressChunk (hs : List ℕ) (chunkWords : List ℕ) : List ℕ :=
  let ws := schedule chunkWords
  let fin := (shaK.zip ws).foldl (fun st kw => compressStep kw st) hs
  (hs.zip fin).map (fun p => (p.1 + p.2) % w32)

/-- Big-endian bytes to 32-bit words (4 bytes per word). -/
def bytesToWords : List ℕ → List ℕ
  | b0 :: b1 :: b2 :: b3 :: rest =>
    (((b0 * 256 + b1) * 256 + b2) * 256 + b3) :: bytesToWords rest
  | _ => []

/-- Split into 64-byte chunks (the padded message length is a multiple of 64). -/
def chunks64 (l : List ℕ) : List (List ℕ) :=
  go l (l.length / 64)
where
  go (l : List ℕ) : ℕ → List (List ℕ)
    | 0 => []
    | n + 1 => l.take 64 :: go (l.drop 64) n

/-- SHA-256 padding: append 0x80, zeros, and the 64-bit big-endian bit length. -/
def shaPad (msg : List ℕ) : List ℕ :=
  let len := msg.length
  let zeros := (64 - (len + 9) % 64) % 64
  let bitLen := len * 8
  msg ++ [0x80] ++ List.replicate zeros 0 ++
    (List.range 8).map (fun i => (bitLen >>> ((7 - i) * 8)) % 256)

/-- SHA-256 digest of a byte list, as 32 bytes. -/
def sha256 (msg : List ℕ) : List ℕ :=
  let hs := (chunks64 (shaPad msg)).foldl (fun h c => compressChunk h (bytesToWords c)) shaH0
  hs.flatMap (fun wrd => (List.range 4).map (fun i => (wrd >>> ((3 - i) * 8)) % 256))

/-- Lowercase hex digit for a nibble. -/
def hexDigit (n : ℕ) : Char := "0123456789abcdef".toList.getD n '0'

/-- Lowercase hex string of a byte list; each byte yields two digits,
matching Rust's `format!("{:x}", digest)` on a SHA-256 digest. -/
def hexOfBytes (bs : List ℕ) : String :=
  String.mk (bs.flatMap (fun b => [hexDigit (b / 16), hexDigit (b % 16)]))

/-- Bytes of a string.  The source hashes UTF-8 bytes; every string fed
to the hash by this program (addresses, decimal numbers, hex digests,
hyphens) is ASCII, where UTF-8 bytes coincide with code points. -/
def strBytes (s : String) : List ℕ := s.toList.map Char.toNat

/-- `u64::to_le_bytes`: 8 little-endian bytes. -/
def le8 (n : ℕ) : List ℕ := (List.range 8).map (fun i => (n >>> (8 * i)) % 256)

/-- Hex digest of a string's bytes — `format!("{:x}", Sha256 ⬝)`. -/
def sha256hex (bs : List ℕ) : String := hexOfBytes (sha256 bs)

example : sha256hex (strBytes "abc") =
    "ba7816bf8f01cfea414140de5dae2223b00361a396177a9cb410ff61f20015ad" := by decide

example : sha256hex (strBytes "") =
    "e3b0c44298fc1c149afbf4c8996fb92427ae41e4649b934ca495991b7852b855" := by decide

/-! ## Data model (`blockchain.rs` lines 9–60)

`String`-keyed maps (`DashMap`/`HashMap` in the source) are modelled as
a list of keys plus a total valuation; insertion adds a key only when
absent, so key lists stay duplicate-free. -/

structure Transaction where
  «from» : String
  «to» : String
  amount : ℕ
  fee : ℕ
  timestamp : ℕ
  tx_id : String
  signature : String
  nonce : ℕ
  deriving DecidableEq, Repr, Inhabited

structure Block where
  index : ℕ
  timestamp : ℕ
  transactions : List Transaction
  prev_hash : String
  hash : String
  proposer : String
  state_root : String
  deriving DecidableEq, Repr, Inhabited

structure Wallet where
  address : String
  balance : ℕ
  tx_count : ℕ
  created_at : ℕ
  last_updated : ℕ
  deriving DecidableEq, Repr, Inhabited

structure TransactionIndex where
  tx_id : String
  block_index : ℕ
  tx_index_in_block : ℕ
  deriving DecidableEq, Repr, Inhabited

/-- A string-keyed map: the key set as a list plus a total valuation.
Values at keys outside `dom` are irrelevant (all reads are guarded). -/
structure SMap (α : Type) where
  dom : List String
  get : String → α

def SMap.lookup {α : Type} (m : SMap α) (k : String) : Option α :=
  if k ∈ m.dom then some (m.get k) else none

def SMap.insert {α : Type} (m : SMap α) (k : String) (v : α) : SMap α :=
  ⟨if k ∈ m.dom then m.dom else k :: m.dom, Function.update m.get k v⟩

def SMap.empty {α : Type} (d : α) : SMap α := ⟨[], fun _ => d⟩

/-- Values persisted in the sled store.  The source writes JSON strings;
the JSON encoding is a representation detail not relevant to any claim,
so the store holds the records themselves. -/
inductive StoreVal where
  | block (b : Block)
  | wallet (w : Wallet)
  deriving DecidableEq, Repr

/-- The `CommunityBlockchain` struct: chain log, wallets, per-address
transaction index, mempool, per-sender nonces, and the sled store.
(`txn_counter` is never read by any code path a claim mentions and is
omitted.) -/
structure State where
  chain : List Block
  wallets : SMap Wallet
  tx_index : SMap (List TransactionIndex)
  pending : List Transaction
  nonces : SMap ℕ
  store : String → Option StoreVal

/-! ## The fee computation (`create_transaction` line 177)

`let fee = (amount as f64 * 0.01).ceil() as u64;`

IEEE-754 double arithmetic is modelled exactly over `Nat`:
`amount as f64` is exact for every `amount < 2 ^ 53`; the literal
`0.01_f64` is the double with bit pattern `0x3F847AE147AE147B`, whose
exact value is `f64c / 2 ^ 59`; the product rounds
`P = amount * f64c` (value `P / 2 ^ 59`) to 53 significant bits with
round-to-nearest, ties to even; `ceil` and the `u64` cast are exact at
the magnitudes involved. -/

/-- Mantissa of the double nearest 0.01: `0.01_f64 = f64c / 2 ^ 59`. -/
def f64c : ℕ := 5764607523034235

/-- Fuel-based binary logarithm (structural recursion so the kernel
can evaluate it; correct for `n < 2 ^ fuel`). -/
def lg2fuel : ℕ → ℕ → ℕ
  | _, 0 => 0
  | n, f + 1 => if n ≤ 1 then 0 else lg2fuel (n / 2) f + 1

def lg2 (n : ℕ) : ℕ := lg2fuel n 128

/-- Round a natural number to 53 significant bits, round-to-nearest,
ties to even (the integer core of double rounding: the real being
rounded is `P` times a power of two, which does not affect rounding). -/
def rn53 (P : ℕ) : ℕ :=
  if P < 2 ^ 53 then P
  else
    let k := lg2 P - 52
    let q := P / 2 ^ k
    let r := P % 2 ^ k
    if r < 2 ^ (k - 1) then q * 2 ^ k
    else if 2 ^ (k - 1) < r then (q + 1) * 2 ^ k
    else (if q % 2 = 0 then q else q + 1) * 2 ^ k

/-- `(amount as f64 * 0.01).ceil() as u64` for `amount < 2 ^ 53`:
the rounded product is `rn53 (amount * f64c) / 2 ^ 59` and `ceil`
divides rounding up. -/
def feeOf (amount : ℕ) : ℕ := (rn53 (amount * f64c) + (2 ^ 59 - 1)) / 2 ^ 59

example : feeOf 100 = 1 := by decide
example : feeOf 600 = 6 := by decide
example : feeOf 1 = 1 := by decide
example : feeOf 101 = 2 := by decide

/-! ## Operations (`blockchain.rs` lines 62–527) -/

/-- `sign_transaction` (lines 231–236): hex SHA-256 over
`tx_id` bytes followed by the sender address bytes. -/
def sign_transaction (tx_id sender : String) : String :=
  sha256hex (strBytes tx_id ++ strBytes sender)

/-- `verify_signature` (lines 239–244): recompute the same digest from
the transaction's `tx_id` and `from` fields and compare strings. -/
def verify_signature (tx : Transaction) : Bool :=
  sha256hex (strBytes tx.tx_id ++ strBytes tx.«from») == tx.signature

/-- Byte-lexicographic strict order on keys — Rust `String` `Ord` and
the order of sled's prefix scan. -/
def bytesLt : List ℕ → List ℕ → Bool
  | [], [] => false
  | [], _ :: _ => true
  | _ :: _, [] => false
  | a :: as, b :: bs => if a < b then true else if b < a then false else bytesLt as bs

/-- Byte-lexicographic order, non-strict. -/
def bytesLe : List ℕ → List ℕ → Bool
  | [], _ => true
  | _ :: _, [] => false
  | a :: as, b :: bs => if a < b then true else if b < a then false else bytesLe as bs

def strLe (a b : String) : Bool := bytesLe (strBytes a) (strBytes b)

/-- Structural insertion sort on strings — `sort_by_key(|(k, _)| *k)`
on the map entries, in Rust's `String` order (byte-lexicographic). -/
def insSorted (a : String) : List String → List String
  | [] => [a]
  | b :: r => if strLe a b then a :: b :: r else b :: insSorted a r

def sortStr (l : List String) : List String := l.foldr insSorted []

/-- `calculate_state_root` (lines 247–258): hash the sorted
`(address, balance.to_le_bytes())` pairs. -/
def calculate_state_root (balances : SMap ℕ) : String :=
  sha256hex ((sortStr balances.dom).flatMap
    (fun a => strBytes a ++ le8 (balances.get a)))

/-- `calculate_block_hash` (lines 330–342): hash of index, timestamp,
prev_hash, state_root, then the ordered tx ids. -/
def calculate_block_hash (b : Block) : String :=
  sha256hex (le8 b.index ++ le8 b.timestamp ++ strBytes b.prev_hash ++
    strBytes b.state_root ++ (b.transactions.map (fun t => strBytes t.tx_id)).flatten)

/-- Error kinds of `create_transaction` (the source returns message
strings; each constructor is one distinct message, named as in spec §7):
`invalidAmount` ↦ "Amount must be greater than 0",
`unknownSender` ↦ "Sender wallet not found",
`insufficientFunds` ↦ "Insufficient balance: …". -/
inductive CreateErr where
  | invalidAmount
  | unknownSender
  | insufficientFunds
  deriving DecidableEq, Repr

/-- `create_transaction` (lines 162–228).  `now` stands for the value
of `current_timestamp()` during the call.  Returns the result paired
with the post-state (the source mutates `&self`). -/
def create_transaction (s : State) (now : ℕ) (fr toAddr : String) (amount : ℕ) :
    Except CreateErr String × State :=
  if amount = 0 then (.error .invalidAmount, s)
  else
    match s.wallets.lookup fr with
    | none => (.error .unknownSender, s)
    | some sw =>
      let fee := feeOf amount
      if sw.balance < amount + fee then (.error .insufficientFunds, s)
      else
        let s1 :=
          if (s.wallets.lookup toAddr).isNone then
            { s with
              wallets := s.wallets.insert toAddr
                ⟨toAddr, 0, 0, now, now⟩
              tx_index := s.tx_index.insert toAddr []
              nonces := s.nonces.insert toAddr 0 }
          else s
        let n := (match s1.nonces.lookup fr with | some v => v | none => 0) + 1
        let s2 := { s1 with nonces := s1.nonces.insert fr n }
        let txid := fr ++ "-" ++ toAddr ++ "-" ++ Nat.repr n ++ "-" ++ Nat.repr now
        let tx : Transaction :=
          ⟨fr, toAddr, amount, fee, now, txid, sign_transaction txid fr, n⟩
        (.ok txid, { s2 with pending := s2.pending ++ [tx] })

/-- Mempool-value view of a shadow balance map:
`temp_balances.get(a).copied().unwrap_or(0)`. -/
def tVal (m : SMap ℕ) (a : String) : ℕ := if a ∈ m.dom then m.get a else 0

/-- The transaction-selection loop of `mine_block` (lines 278–297):
signature check, per-call nonce sequencing, shadow-balance check and
update.  Returns the accepted transactions in order and the final
shadow balances. -/
def mineFold : List Transaction → SMap ℕ → (String → ℕ) → List Transaction × SMap ℕ
  | [], temp, _ => ([], temp)
  | t :: rest, temp, nn =>
    if verify_signature t = false then mineFold rest temp nn
    else if t.nonce ≠ nn t.«from» + 1 then mineFold rest temp nn
    else if tVal temp t.«from» < t.amount + t.fee then
      mineFold rest temp (Function.update nn t.«from» t.nonce)
    else
      let temp1 := temp.insert t.«from» (tVal temp t.«from» - (t.amount + t.fee))
      let temp2 := temp1.insert t.«to» (tVal temp1 t.«to» + t.amount)
      let r := mineFold rest temp2 (Function.update nn t.«from» t.nonce)
      (t :: r.1, r.2)

/-- Error kinds of `mine_block`:
`noPending` ↦ "No pending transactions to mine" (line 265),
`emptyBlock` ↦ "No valid transactions after validation" (line 300);
`noTip` models the `chain.last().unwrap()` panic on an empty chain
(unreachable from `new`, which installs genesis). -/
inductive MineErr where
  | noPending
  | emptyBlock
  | noTip
  deriving DecidableEq, Repr

/-- `mine_block` (lines 261–327). -/
def mine_block (proposer : String) (now : ℕ) (s : State) :
    Except MineErr Block × State :=
  if s.pending = [] then (.error .noPending, s)
  else
    let temp0 : SMap ℕ := ⟨s.wallets.dom, fun a => (s.wallets.get a).balance⟩
    let r := mineFold s.pending temp0 (fun _ => 0)
    if r.1 = [] then (.error .emptyBlock, s)
    else
      match s.chain.getLast? with
      | none => (.error .noTip, s)
      | some tip =>
        let b0 : Block :=
          ⟨tip.index + 1, now, r.1, tip.hash, "", proposer, calculate_state_root r.2⟩
        (.ok { b0 with hash := calculate_block_hash b0 }, { s with pending := [] })

/-- Error kinds of `add_block`:
`badIndex` ↦ "Invalid block index", `badLink` ↦ "Invalid previous hash",
`badHash` ↦ "Invalid block hash"; `noTip` models the
`chain.last().unwrap()` panic.  (Sled persistence errors are not
modelled: the store model below always succeeds.) -/
inductive AddErr where
  | badIndex
  | badLink
  | badHash
  | noTip
  deriving DecidableEq, Repr

/-- Sled key written by `persist_block` (lines 423–430):
`format!("block:{}", block.index)`. -/
def blockKey (i : ℕ) : String := "block:" ++ Nat.repr i

/-- Sled key for a wallet record: `format!("wallet:{}", address)`. -/
def walletKey (a : String) : String := "wallet:" ++ a

def putStore (st : String → Option StoreVal) (k : String) (v : StoreVal) :
    String → Option StoreVal :=
  fun k' => if k' = k then some v else st k'

/-- The wallet-persistence loop at the end of `add_block`
(lines 407–413): write every wallet under its `wallet:` key. -/
def persistWallets (w : SMap Wallet) (st : String → Option StoreVal) :
    String → Option StoreVal :=
  w.dom.foldl (fun acc a => putStore acc (walletKey a) (.wallet (w.get a))) st

/-- The sender debit of the per-transaction application step of
`add_block` (lines 366–371): only performed when the sender wallet
exists (`if let Some(mut sender) = ...get_mut(&tx.from)`); the `-=` is
`u64` subtraction, modelled as truncated `Nat` subtraction. -/
def debitW (now : ℕ) (w : SMap Wallet) (t : Transaction) : SMap Wallet :=
  match w.lookup t.«from» with
  | some sw =>
    w.insert t.«from»
      { sw with
        balance := sw.balance - (t.amount + t.fee)
        tx_count := sw.tx_count + 1
        last_updated := now }
  | none => w

/-- The recipient credit of the application loop:
`entry(...).or_insert_with(zero wallet)` then `balance += amount`. -/
def creditW (now : ℕ) (w : SMap Wallet) (t : Transaction) : SMap Wallet :=
  let rw :=
    match w.lookup t.«to» with
    | some rw => rw
    | none => ⟨t.«to», 0, 0, now, now⟩
  w.insert t.«to» { rw with balance := rw.balance + t.amount, last_updated := now }

def applyTx (now : ℕ) (b : Block) (acc : SMap Wallet × SMap (List TransactionIndex))
    (t : Transaction) : SMap Wallet × SMap (List TransactionIndex) :=
  let w2 := creditW now (debitW now acc.1 t) t
  let pos := b.transactions.findIdx (fun u => u.tx_id == t.tx_id)
  let e : TransactionIndex := ⟨t.tx_id, b.index, pos⟩
  let ti := acc.2
  let ti1 := ti.insert t.«from» (((ti.lookup t.«from»).getD []) ++ [e])
  let ti2 := ti1.insert t.«to» (((ti1.lookup t.«to»).getD []) ++ [e])
  (w2, ti2)

/-- `add_block` (lines 345–420).  Returns `none` on success; on failure
the error together with the state as mutated so far (the three
validation failures occur before any mutation). -/
def add_block (now : ℕ) (s : State) (b : Block) : Option AddErr × State :=
  match s.chain.getLast? with
  | none => (some .noTip, s)
  | some tip =>
    if b.index ≠ tip.index + 1 then (some .badIndex, s)
    else if b.prev_hash ≠ tip.hash then (some .badLink, s)
    else if calculate_block_hash b ≠ b.hash then (some .badHash, s)
    else
      let z := b.transactions.foldl (applyTx now b) (s.wallets, s.tx_index)
      let st1 := putStore s.store (blockKey b.index) (.block b)
      let st2 := persistWallets z.1 st1
      (none,
        { s with
          wallets := z.1
          tx_index := z.2
          store := st2
          chain := s.chain ++ [b] })

/-- `verify_chain` (lines 479–497): for each `i` in `1 .. chain.len()`,
check the link to the previous block and recompute the hash. -/
def verify_chain (chain : List Block) : Bool :=
  (List.range' 1 (chain.length - 1)).all fun i =>
    ((chain.getD i default).prev_hash == (chain.getD (i - 1) default).hash) &&
    (calculate_block_hash (chain.getD i default) == (chain.getD i default).hash)

/-- The genesis block installed by `new` (lines 90–98). -/
def genesisBlock (now : ℕ) : Block :=
  ⟨0, now, [], "0", "genesis", "system", "genesis_root"⟩

/-- One iteration of `new`'s wallet-initialisation loop
(`blockchain.rs` lines 72–87). -/
def initStep (now : ℕ) (s : State) (p : String × ℕ) : State :=
  { s with
    wallets := s.wallets.insert p.1 ⟨p.1, p.2, 0, now, now⟩
    nonces := s.nonces.insert p.1 0
    tx_index := s.tx_index.insert p.1 []
    store := putStore s.store (walletKey p.1) (.wallet ⟨p.1, p.2, 0, now, now⟩) }

def initState (ib : List (String × ℕ)) (now : ℕ) : State :=
  let start : State :=
    { chain := [genesisBlock now]
      wallets := SMap.empty default
      tx_index := SMap.empty []
      pending := []
      nonces := SMap.empty 0
      store := fun _ => none }
  let s1 := ib.foldl (initStep now) start
  { s1 with store := putStore s1.store (blockKey 0) (.block (genesisBlock now)) }

/-- `new(initial_wallets, db_path)` (lines 64–115) builds `initState`:
initial wallets with their nonce and index entries, the genesis block,
and the initial persisted records.  `ib` is the `initial_wallets` map
as an association list (a Rust `HashMap` has pairwise-distinct keys). -/
theorem initFold_chain_pending (now : ℕ) :
    ∀ (l : List (String × ℕ)) (st : State),
      (l.foldl (initStep now) st).chain = st.chain ∧
      (l.foldl (initStep now) st).pending = st.pending := by
  intro l
  induction l with
  | nil => intro st; exact ⟨rfl, rfl⟩
  | cons p r ihp => intro st; rw [List.foldl_cons]; exact ihp _

theorem initState_def (ib : List (String × ℕ)) (now : ℕ) :
    (initState ib now).chain = [genesisBlock now] ∧
    (initState ib now).pending = [] := by
  unfold initState
  dsimp only
  exact ⟨(initFold_chain_pending now ib _).1, (initFold_chain_pending now ib _).2⟩

/-- The operation alphabet of claim C1: successful `create_transaction`
calls and successful `mine_block` + `add_block` of the mined block. -/
inductive Op where
  | create (fr toAddr : String) (amount : ℕ)
  | mineAdd (proposer : String)
  deriving DecidableEq, Repr

/-- One operation, tagged with the `current_timestamp` value `now` in
effect during it; `none` when the operation does not succeed. -/
def stepOp (s : State) : ℕ × Op → Option State
  | (now, .create fr toAddr a) =>
    match create_transaction s now fr toAddr a with
    | (.ok _, s') => some s'
    | (.error _, _) => none
  | (now, .mineAdd p) =>
    match mine_block p now s with
    | (.ok b, s1) =>
      match add_block now s1 b with
      | (none, s2) => some s2
      | (some _, _) => none
    | (.error _, _) => none

def runOps (s : State) : List (ℕ × Op) → Option State
  | [] => some s
  | op :: rest =>
    match stepOp s op with
    | some s' => runOps s' rest
    | none => none

/-! ## Helper lemmas about the map model -/

theorem SMap.lookup_eq_some {α : Type} {m : SMap α} {k : String} {v : α} :
    m.lookup k = some v ↔ k ∈ m.dom ∧ m.get k = v := by
  unfold SMap.lookup; split <;> simp_all

theorem SMap.lookup_eq_none {α : Type} {m : SMap α} {k : String} :
    m.lookup k = none ↔ k ∉ m.dom := by
  unfold SMap.lookup; split <;> simp_all

theorem SMap.mem_insert_dom {α : Type} (m : SMap α) (k : String) (v : α) (x : String) :
    x ∈ (m.insert k v).dom ↔ x = k ∨ x ∈ m.dom := by
  unfold SMap.insert; dsimp only; split <;> rename_i h
  · constructor
    · exact fun hx => Or.inr hx
    · rintro (rfl | hx)
      · exact h
      · exact hx
  · simp [List.mem_cons]

theorem SMap.insert_dom_nodup {α : Type} (m : SMap α) (k : String) (v : α)
    (h : m.dom.Nodup) : (m.insert k v).dom.Nodup := by
  unfold SMap.insert; dsimp only; split
  · exact h
  · exact List.Nodup.cons (by assumption) h

/-- Mempool-shadow view after an insert. -/
theorem tVal_insert (m : SMap ℕ) (k : String) (v : ℕ) (x : String) :
    tVal (m.insert k v) x = if x = k then v else tVal m x := by
  unfold tVal SMap.insert; dsimp only
  by_cases hx : x = k
  · subst hx; simp [Function.update_apply]
    split <;> simp_all
  · simp [Function.update_apply, hx]
    split <;> rename_i hdom
    · rfl
    · simp [List.mem_cons, hx]

/-- Committed-balance view (`0` outside the wallet set, matching the
`unwrap_or(0)` reads against the shadow map). -/
def wVal (w : SMap Wallet) (a : String) : ℕ :=
  if a ∈ w.dom then (w.get a).balance else 0

theorem wVal_insert (w : SMap Wallet) (k : String) (wl : Wallet) (x : String) :
    wVal (w.insert k wl) x = if x = k then wl.balance else wVal w x := by
  unfold wVal SMap.insert; dsimp only
  by_cases hx : x = k
  · subst hx; simp [Function.update_apply]
    split <;> simp_all
  · simp [Function.update_apply, hx]
    split <;> rename_i hdom
    · rfl
    · simp [List.mem_cons, hx]

/-- Total balance held by all wallets: `sum(balances)`. -/
def sumBal (w : SMap Wallet) : ℕ := (w.dom.map fun a => (w.get a).balance).sum

/-- Total fees of the transactions of all applied blocks. -/
def chainFees (c : List Block) : ℕ :=
  (c.map fun b => (b.transactions.map Transaction.fee).sum).sum

theorem list_map_update_of_not_mem {α : Type} (l : List String) (g : String → α)
    (k : String) (v : α) (h : k ∉ l) :
    l.map (Function.update g k v) = l.map g := by
  apply List.map_congr_left
  intro a ha
  have : a ≠ k := fun he => h (he ▸ ha)
  simp [Function.update_apply, this]

theorem sum_map_update (l : List String) (f : String → ℕ) (k : String) (x : ℕ)
    (hk : k ∈ l) (hnd : l.Nodup) :
    (l.map (Function.update f k x)).sum + f k = (l.map f).sum + x := by
  induction l with
  | nil => cases hk
  | cons a rest ih =>
    rcases List.nodup_cons.mp hnd with ⟨hna, hndr⟩
    by_cases hak : a = k
    · rw [List.map_cons, List.map_cons, List.sum_cons, List.sum_cons]
      have hkr : k ∉ rest := hak ▸ hna
      rw [list_map_update_of_not_mem rest f k x hkr, hak, Function.update_same]
      omega
    · rcases List.mem_cons.mp hk with he | hm
      · exact absurd he.symm hak
      · rw [List.map_cons, List.map_cons, List.sum_cons, List.sum_cons,
          Function.update_apply, if_neg hak]
        have := ih hm hndr
        omega

theorem sumBal_insert_mem (w : SMap Wallet) (k : String) (wl : Wallet)
    (hk : k ∈ w.dom) (hnd : w.dom.Nodup) :
    sumBal (w.insert k wl) + (w.get k).balance = sumBal w + wl.balance := by
  unfold sumBal SMap.insert; dsimp only
  rw [if_pos hk]
  have hmap : w.dom.map (fun a => ((Function.update w.get k wl) a).balance) =
      w.dom.map (Function.update (fun a => (w.get a).balance) k wl.balance) := by
    apply List.map_congr_left
    intro a _
    by_cases hak : a = k <;> simp [Function.update_apply, hak]
  rw [hmap]
  exact sum_map_update w.dom (fun a => (w.get a).balance) k wl.balance hk hnd

theorem sumBal_insert_not_mem (w : SMap Wallet) (k : String) (wl : Wallet)
    (hk : k ∉ w.dom) :
    sumBal (w.insert k wl) = sumBal w + wl.balance := by
  unfold sumBal SMap.insert; dsimp only
  rw [if_neg hk, List.map_cons, List.sum_cons]
  have hmap : w.dom.map (fun a => ((Function.update w.get k wl) a).balance) =
      w.dom.map (fun a => (w.get a).balance) := by
    apply List.map_congr_left
    intro a ha
    have hne : a ≠ k := fun he => hk (he ▸ ha)
    simp [Function.update_apply, hne]
  rw [hmap, Function.update_same]
  omega

/-! ## Debit/credit lemmas -/

theorem debitW_dom (now : ℕ) (w : SMap Wallet) (t : Transaction) :
    (debitW now w t).dom = w.dom := by
  unfold debitW
  cases h : w.lookup t.«from» with
  | none => rfl
  | some sw =>
    have hm := (SMap.lookup_eq_some.mp h).1
    unfold SMap.insert; dsimp only
    rw [if_pos hm]

theorem debitW_wVal (now : ℕ) (w : SMap Wallet) (t : Transaction)
    (hm : t.«from» ∈ w.dom) (x : String) :
    wVal (debitW now w t) x =
      if x = t.«from» then (w.get t.«from»).balance - (t.amount + t.fee)
      else wVal w x := by
  unfold debitW
  cases h : w.lookup t.«from» with
  | none => exact absurd (SMap.lookup_eq_none.mp h) (by simpa using hm)
  | some sw =>
    have hg := (SMap.lookup_eq_some.mp h).2
    rw [wVal_insert]
    subst hg
    rfl

theorem debitW_sum (now : ℕ) (w : SMap Wallet) (t : Transaction)
    (hm : t.«from» ∈ w.dom) (hnd : w.dom.Nodup)
    (hsuf : t.amount + t.fee ≤ (w.get t.«from»).balance) :
    sumBal (debitW now w t) + (t.amount + t.fee) = sumBal w := by
  unfold debitW
  split <;> rename_i sw h
  case _ =>
    have hg := (SMap.lookup_eq_some.mp h).2
    have hs := sumBal_insert_mem w t.«from»
      { sw with
        balance := sw.balance - (t.amount + t.fee)
        tx_count := sw.tx_count + 1
        last_updated := now } hm hnd
    dsimp only at hs
    rw [hg] at hsuf
    rw [hg] at hs
    omega
  case _ => exact absurd (SMap.lookup_eq_none.mp h) (by simpa using hm)

theorem creditW_dom_mono (now : ℕ) (w : SMap Wallet) (t : Transaction) (x : String)
    (hx : x ∈ w.dom) : x ∈ (creditW now w t).dom := by
  unfold creditW; dsimp only
  rw [SMap.mem_insert_dom]
  exact Or.inr hx

theorem creditW_nodup (now : ℕ) (w : SMap Wallet) (t : Transaction)
    (hnd : w.dom.Nodup) : (creditW now w t).dom.Nodup :=
  SMap.insert_dom_nodup _ _ _ hnd

theorem creditW_wVal (now : ℕ) (w : SMap Wallet) (t : Transaction) (x : String) :
    wVal (creditW now w t) x =
      if x = t.«to» then wVal w t.«to» + t.amount else wVal w x := by
  unfold creditW; dsimp only
  rw [wVal_insert]
  cases h : w.lookup t.«to» with
  | none =>
    have hnm := SMap.lookup_eq_none.mp h
    simp [wVal, hnm]
  | some rw_ =>
    obtain ⟨hm, hg⟩ := SMap.lookup_eq_some.mp h
    simp [wVal, hm, hg]

theorem creditW_sum (now : ℕ) (w : SMap Wallet) (t : Transaction)
    (hnd : w.dom.Nodup) :
    sumBal (creditW now w t) = sumBal w + t.amount := by
  unfold creditW; dsimp only
  split <;> rename_i h
  case _ rw_ =>
    obtain ⟨hm, hg⟩ := SMap.lookup_eq_some.mp h
    have hs := sumBal_insert_mem w t.«to»
      { rw_ with balance := rw_.balance + t.amount, last_updated := now } hm hnd
    dsimp only at hs
    rw [hg] at hs
    omega
  case _ =>
    have hnm := SMap.lookup_eq_none.mp h
    have hs := sumBal_insert_not_mem w t.«to»
      { address := t.«to», balance := 0 + t.amount, tx_count := 0,
        created_at := now, last_updated := now } hnm
    dsimp only at hs
    rw [hs]
    omega

/-! ## C5: `InvalidAmount` condition -/

set_option maxRecDepth 4000 in
/-- C5 counterexample: the claim says every amount above `10 ^ 12`
fails with `InvalidAmount`; the core `create_transaction` has no upper
cap, so with a rich enough sender the call succeeds at
`amount = 10 ^ 12 + 1`. -/
theorem create_transaction_no_cap_cex :
    (create_transaction (initState [("alice", 3 * 10 ^ 12)] 0) 0 "alice" "bob"
        (10 ^ 12 + 1)).1.toOption = some "alice-bob-1-0" ∧
    (create_transaction (initState [("alice", 3 * 10 ^ 12)] 0) 0 "alice" "bob"
        (10 ^ 12 + 1)).1.isOk = true := by
  constructor
  · decide
  · decide

/-- C5 (amended): `create_transaction` returns `InvalidAmount` exactly
when the amount is zero; there is no `10 ^ 12` cap in the core (that
check lives only in the HTTP boundary, outside this engine). -/
theorem create_transaction_invalid_amount_iff (s : State) (now : ℕ)
    (fr toAddr : String) (a : ℕ) :
    (create_transaction s now fr toAddr a).1 = Except.error CreateErr.invalidAmount ↔
      a = 0 := by
  unfold create_transaction
  by_cases ha : a = 0
  · simp [ha]
  · rw [if_neg ha]
    cases s.wallets.lookup fr with
    | none => simp [ha]
    | some sw =>
      dsimp only
      split <;> simp [ha]

/-- C5 witness: at `amount = 0` the error is indeed `InvalidAmount`. -/
theorem create_transaction_invalid_amount_iff_witness :
    (create_transaction (initState [("alice", 5)] 0) 0 "alice" "bob" 0).1 =
      Except.error CreateErr.invalidAmount :=
  (create_transaction_invalid_amount_iff _ 0 "alice" "bob" 0).mpr rfl

/-! ## C9: failed `add_block` validation leaves the state unchanged -/

/-- C9: when `add_block` rejects a block with `BadIndex`, `BadLink` or
`BadHash`, the returned state is exactly the input state: chain,
wallets, transaction index, nonces, mempool and persistent store are
all untouched (the three validations run before any mutation). -/
theorem add_block_validation_failure_pure (now : ℕ) (s : State) (b : Block)
    (e : AddErr) (s' : State)
    (h : add_block now s b = (some e, s'))
    (_he : e = AddErr.badIndex ∨ e = AddErr.badLink ∨ e = AddErr.badHash) :
    s' = s := by
  clear _he
  unfold add_block at h
  cases htip : s.chain.getLast? with
  | none => rw [htip] at h; exact (Prod.mk.injEq _ _ _ _ ▸ h).2.symm
  | some tip =>
    rw [htip] at h
    dsimp only at h
    split at h
    · exact ((Prod.mk.injEq _ _ _ _).mp h).2.symm
    · split at h
      · exact ((Prod.mk.injEq _ _ _ _).mp h).2.symm
      · split at h
        · exact ((Prod.mk.injEq _ _ _ _).mp h).2.symm
        · exact absurd ((Prod.mk.injEq _ _ _ _).mp h).1 (by simp)

/-- C9 witness: a block with a bad index is rejected and the state is
returned unchanged. -/
theorem add_block_validation_failure_pure_witness :
    (add_block 0 (initState [("alice", 5)] 0)
        ⟨5, 0, [], "x", "y", "p", "r"⟩).2 = initState [("alice", 5)] 0 := by
  have h : add_block 0 (initState [("alice", 5)] 0) ⟨5, 0, [], "x", "y", "p", "r"⟩ =
      (some AddErr.badIndex,
        (add_block 0 (initState [("alice", 5)] 0) ⟨5, 0, [], "x", "y", "p", "r"⟩).2) := rfl
  exact add_block_validation_failure_pure 0 _ _ _ _ h (Or.inl rfl)

/-! ## C8: block persistence keys -/

/-- C8 counterexample: blocks are persisted under
`format!("block:{}", index)` with no zero-padding, so block 1 is stored
at `"block:1"`, not `"block:00000000000000000001"`, and in the store's
byte-lexicographic scan order the key of block 10 sorts before the key
of block 2 although `2 < 10`. -/
theorem block_key_not_padded_cex :
    blockKey 1 ≠ "block:00000000000000000001" ∧
    blockKey 1 = "block:1" ∧
    bytesLt (strBytes (blockKey 10)) (strBytes (blockKey 2)) = true ∧
    2 < 10 := by
  refine ⟨by decide, by decide, by decide, by decide⟩

theorem walletKey_ne_blockKey (a : String) (i : ℕ) : walletKey a ≠ blockKey i := by
  intro h
  have hd := congrArg String.data h
  unfold walletKey blockKey at hd
  rw [String.data_append, String.data_append] at hd
  exact absurd (List.head_eq_of_cons_eq hd) (by decide)

theorem persistWallets_preserves (w : SMap Wallet) (st : String → Option StoreVal)
    (k : String) (hk : ∀ a, walletKey a ≠ k) :
    persistWallets w st k = st k := by
  unfold persistWallets
  generalize w.dom = l
  induction l generalizing st with
  | nil => rfl
  | cons a rest ih =>
    rw [List.foldl_cons, ih]
    unfold putStore
    rw [if_neg (fun he => hk a he.symm)]

/-- C8 (amended): every block accepted by `add_block` is persisted
under the key `"block:" ++ <decimal index>` (no zero-padding; `load`
reads blocks back by exact key lookup, so reloading is unaffected, but
byte-ordered prefix scans do not list blocks in numeric order once the
chain passes index 9). -/
theorem add_block_persists_under_decimal_key (now : ℕ) (s : State) (b : Block)
    (s' : State) (h : add_block now s b = (none, s')) :
    s'.store (blockKey b.index) = some (StoreVal.block b) ∧
    blockKey b.index = "block:" ++ Nat.repr b.index := by
  refine ⟨?_, rfl⟩
  unfold add_block at h
  cases htip : s.chain.getLast? with
  | none => rw [htip] at h; exact absurd ((Prod.mk.injEq _ _ _ _).mp h).1 (by simp)
  | some tip =>
    rw [htip] at h
    dsimp only at h
    split at h
    · exact absurd ((Prod.mk.injEq _ _ _ _).mp h).1 (by simp)
    · split at h
      · exact absurd ((Prod.mk.injEq _ _ _ _).mp h).1 (by simp)
      · split at h
        · exact absurd ((Prod.mk.injEq _ _ _ _).mp h).1 (by simp)
        · have hs := ((Prod.mk.injEq _ _ _ _).mp h).2
          rw [← hs]
          dsimp only
          rw [persistWallets_preserves _ _ _ (fun a => walletKey_ne_blockKey a b.index)]
          unfold putStore
          rw [if_pos rfl]

/-- C8 witness: adding a valid (empty) block 1 stores it under
`"block:1"`. -/
theorem add_block_persists_under_decimal_key_witness :
    (add_block 1 (initState [("alice", 5)] 0)
        { index := 1, timestamp := 1, transactions := [], prev_hash := "genesis",
          hash := calculate_block_hash
            ⟨1, 1, [], "genesis", "", "p", "r"⟩, proposer := "p", state_root := "r" }).2.store
      (blockKey 1) =
    some (StoreVal.block
      { index := 1, timestamp := 1, transactions := [], prev_hash := "genesis",
        hash := calculate_block_hash
          ⟨1, 1, [], "genesis", "", "p", "r"⟩, proposer := "p", state_root := "r" }) := by
  have h : add_block 1 (initState [("alice", 5)] 0)
      { index := 1, timestamp := 1, transactions := [], prev_hash := "genesis",
        hash := calculate_block_hash
          ⟨1, 1, [], "genesis", "", "p", "r"⟩, proposer := "p", state_root := "r" } =
      (none, (add_block 1 (initState [("alice", 5)] 0)
        { index := 1, timestamp := 1, transactions := [], prev_hash := "genesis",
          hash := calculate_block_hash
            ⟨1, 1, [], "genesis", "", "p", "r"⟩, proposer := "p", state_root := "r" }).2) := by
    rfl
  exact (add_block_persists_under_decimal_key 1 _ _ _ h).1

/-! ## C7: `verify_chain` characterisation -/

/-- C7: `verify_chain` returns `true` iff for every index `i > 0` the
block links to its predecessor's `hash` and its own `hash` recomputes
from its contents; the genesis block at index 0 is never itself
checked. -/
theorem verify_chain_iff (chain : List Block) :
    verify_chain chain = true ↔
      ∀ i, 0 < i → i < chain.length →
        (chain.getD i default).prev_hash = (chain.getD (i - 1) default).hash ∧
        (chain.getD i default).hash = calculate_block_hash (chain.getD i default) := by
  unfold verify_chain
  rw [List.all_eq_true]
  constructor
  · intro h i h0 hlen
    have hm : i ∈ List.range' 1 (chain.length - 1) := by
      rw [List.mem_range'_1]; omega
    have hi := h i hm
    rw [Bool.and_eq_true, beq_iff_eq, beq_iff_eq] at hi
    exact ⟨hi.1, hi.2.symm⟩
  · intro h i hm
    rw [List.mem_range'_1] at hm
    have hi := h i (by omega) (by omega)
    rw [Bool.and_eq_true, beq_iff_eq, beq_iff_eq]
    exact ⟨hi.1, hi.2.symm⟩

/-- C7 witness: a single-block chain passes vacuously. -/
theorem verify_chain_iff_witness : verify_chain [genesisBlock 0] = true :=
  (verify_chain_iff [genesisBlock 0]).mpr
    (fun i h0 hlen => absurd hlen (by simp; omega))

/-! ## C4: mempool behaviour of `mine_block` -/

/-- The two-transaction state for the C4 counterexample: alice (balance
1000) submits two 600-coin transfers; each passes admission against the
committed balance 1000, but only the first fits during mining. -/
def c4state : State :=
  (create_transaction
    (create_transaction (initState [("alice", 1000)] 0) 0 "alice" "bob" 600).2
    1 "alice" "bob" 600).2

/-- C4 counterexample: before mining there are two pending transactions,
both with valid signatures; mining accepts only the first (nonce 1) —
the second is rejected for insufficient shadow funds, not for a bad
signature — yet the mempool is left completely empty instead of
retaining the rejected transaction. -/
theorem mine_block_drops_rejected_cex :
    c4state.pending.length = 2 ∧
    c4state.pending.all verify_signature = true ∧
    (mine_block "p" 2 c4state).1.toOption.map
      (fun b => b.transactions.map Transaction.nonce) = some [1] ∧
    (mine_block "p" 2 c4state).2.pending = [] := by
  refine ⟨by decide, by decide, by decide, by decide⟩

/-- C4 (amended): when `mine_block` succeeds it clears the entire
mempool — accepted and rejected transactions alike (including
rejections that are not signature failures); only wallet balances, the
chain, nonces, the index and the store are untouched.  When it fails
(`EmptyBlock` because every transaction was rejected, or an empty
mempool) the state — including the mempool — is unchanged. -/
theorem mine_block_mempool_clearing (p : String) (now : ℕ) (s : State) :
    (∀ b s', mine_block p now s = (Except.ok b, s') →
      s'.pending = [] ∧ s'.wallets = s.wallets ∧ s'.chain = s.chain ∧
      s'.nonces = s.nonces ∧ s'.tx_index = s.tx_index ∧ s'.store = s.store) ∧
    (∀ e s', mine_block p now s = (Except.error e, s') → s' = s) := by
  constructor
  · intro b s' h
    unfold mine_block at h
    split at h
    · exact absurd ((Prod.mk.injEq _ _ _ _).mp h).1 (by simp)
    · dsimp only at h
      split at h
      · exact absurd ((Prod.mk.injEq _ _ _ _).mp h).1 (by simp)
      · split at h
        · exact absurd ((Prod.mk.injEq _ _ _ _).mp h).1 (by simp)
        · have hs := ((Prod.mk.injEq _ _ _ _).mp h).2
          rw [← hs]
          exact ⟨rfl, rfl, rfl, rfl, rfl, rfl⟩
  · intro e s' h
    unfold mine_block at h
    split at h
    · exact ((Prod.mk.injEq _ _ _ _).mp h).2.symm
    · dsimp only at h
      split at h
      · exact ((Prod.mk.injEq _ _ _ _).mp h).2.symm
      · split at h
        · exact ((Prod.mk.injEq _ _ _ _).mp h).2.symm
        · exact absurd ((Prod.mk.injEq _ _ _ _).mp h).1 (by simp)

/-- C4 witness: mining an empty mempool fails and returns the state
unchanged. -/
theorem mine_block_mempool_clearing_witness :
    (mine_block "p" 0 (initState [] 0)).2 = initState [] 0 :=
  (mine_block_mempool_clearing "p" 0 (initState [] 0)).2 MineErr.noPending _ rfl

/-! ## C2: what the signature actually is -/

/-- Standard base64 alphabet value of a character (spec §3/§4.4 says
signatures are base64-encoded). -/
def b64val (c : Char) : Option ℕ :=
  if 'A' ≤ c ∧ c ≤ 'Z' then some (c.toNat - 65)
  else if 'a' ≤ c ∧ c ≤ 'z' then some (c.toNat - 97 + 26)
  else if '0' ≤ c ∧ c ≤ '9' then some (c.toNat - 48 + 52)
  else if c = '+' then some 62
  else if c = '/' then some 63
  else none

/-- Base64 decoding (unpadded groups of four characters to three
bytes), following the spec's words. -/
def b64decode : List Char → Option (List ℕ)
  | [] => some []
  | c1 :: c2 :: c3 :: c4 :: rest =>
    match b64val c1, b64val c2, b64val c3, b64val c4, b64decode rest with
    | some v1, some v2, some v3, some v4, some bs =>
      let n := ((v1 * 64 + v2) * 64 + v3) * 64 + v4
      some ([n / 65536, n / 256 % 256, n % 256] ++ bs)
    | _, _, _, _, _ => none
  | _ => none

/-- Verification procedure following the spec's words (§4.4 Verify):
look up the sender's 32-byte `public_key`, base64-decode the signature
— which must yield 64 bytes — and Ed25519-verify it against the
`tx_id` bytes.  The Ed25519 primitive itself is a parameter `ed`,
so the statement below holds even for the most permissive verifier. -/
def specVerifySignature (ed : List ℕ → List ℕ → List ℕ → Bool)
    (public_key : List ℕ) (t : Transaction) : Bool :=
  match b64decode t.signature.toList with
  | some sigBytes => sigBytes.length == 64 && ed public_key (strBytes t.tx_id) sigBytes
  | none => false

/-- The transaction created in the C2 counterexample state. -/
def c2tx : Transaction :=
  (create_transaction (initState [("alice", 1000)] 0) 0 "alice" "bob" 100).2.pending.getD 0
    default

/-- C2 counterexample: the code accepts the signature it produced
(`verify_signature` recomputes a SHA-256 hex digest and compares
strings), but the spec's verification procedure rejects it even with an
Ed25519 oracle that accepts everything: the signature is a 64-character
hex string, whose base64 decoding yields 48 bytes, not the required 64.
No wallet `public_key` is involved anywhere — `Wallet` has no such
field. -/
theorem signature_not_ed25519_base64_cex :
    verify_signature c2tx = true ∧
    c2tx.signature.length = 64 ∧
    specVerifySignature (fun _ _ _ => true) (List.replicate 32 0) c2tx = false := by
  refine ⟨by decide, by decide, by decide⟩

/-- C2 (amended): the `signature` of every transaction returned by
`create_transaction` is the lowercase-hex SHA-256 digest of the
`tx_id` bytes followed by the sender-address bytes, and
`verify_signature` accepts a transaction exactly when its `signature`
equals that recomputed digest — no keys, base64 or Ed25519 are
involved. -/
theorem signature_scheme (s : State) (now : ℕ) (fr toAddr : String) (a : ℕ)
    (r : String) (s' : State) (t : Transaction)
    (h : create_transaction s now fr toAddr a = (Except.ok r, s'))
    (ht : s'.pending.getLast? = some t) :
    t.signature = sha256hex (strBytes t.tx_id ++ strBytes t.«from») ∧
    verify_signature t = true ∧
    (∀ u : Transaction, verify_signature u = true ↔
      u.signature = sha256hex (strBytes u.tx_id ++ strBytes u.«from»)) := by
  have hu : ∀ u : Transaction, verify_signature u = true ↔
      u.signature = sha256hex (strBytes u.tx_id ++ strBytes u.«from») := by
    intro u
    unfold verify_signature
    rw [beq_iff_eq]
    exact eq_comm
  unfold create_transaction at h
  split at h
  · exact absurd ((Prod.mk.injEq _ _ _ _).mp h).1 (by simp)
  · split at h
    · exact absurd ((Prod.mk.injEq _ _ _ _).mp h).1 (by simp)
    · dsimp only at h
      split at h
      · exact absurd ((Prod.mk.injEq _ _ _ _).mp h).1 (by simp)
      · have hs := ((Prod.mk.injEq _ _ _ _).mp h).2
        rw [← hs] at ht
        dsimp only at ht
        rw [List.getLast?_concat] at ht
        have htx := Option.some.inj ht
        rw [← htx]
        dsimp only
        exact ⟨rfl, (hu _).mpr rfl, hu⟩

/-- C2 witness: the amended statement instantiated on a concrete
created transaction. -/
theorem signature_scheme_witness :
    c2tx.signature = sha256hex (strBytes c2tx.tx_id ++ strBytes c2tx.«from») ∧
    verify_signature c2tx = true := by
  have h : create_transaction (initState [("alice", 1000)] 0) 0 "alice" "bob" 100 =
      (Except.ok "alice-bob-1-0",
        (create_transaction (initState [("alice", 1000)] 0) 0 "alice" "bob" 100).2) := rfl
  have ht : (create_transaction (initState [("alice", 1000)] 0) 0 "alice" "bob"
      100).2.pending.getLast? = some c2tx := by decide
  have hmain := signature_scheme _ 0 "alice" "bob" 100 _ _ c2tx h ht
  exact ⟨hmain.1, hmain.2.1⟩

instance {ε α : Type} [DecidableEq ε] [DecidableEq α] : DecidableEq (Except ε α) :=
  fun x y =>
    match x, y with
    | .ok a, .ok b =>
      if h : a = b then .isTrue (congrArg Except.ok h)
      else .isFalse (fun hc => h (Except.ok.inj hc))
    | .error a, .error b =>
      if h : a = b then .isTrue (congrArg Except.error h)
      else .isFalse (fun hc => h (Except.error.inj hc))
    | .ok _, .error _ => .isFalse (fun hc => Except.noConfusion hc)
    | .error _, .ok _ => .isFalse (fun hc => Except.noConfusion hc)

/-! ## C3: nonce sequencing across blocks -/

/-- The C3 failing run: alice's first transfer (nonce 1) is mined and
applied; she then submits a second transfer, which `create_transaction`
stamps with nonce 2 (the persistent per-sender counter). -/
def c3run : Option State :=
  runOps (initState [("alice", 1000000)] 0)
    [(1, Op.create "alice" "bob" 100), (2, Op.mineAdd "p"),
     (3, Op.create "alice" "bob" 100)]

set_option maxRecDepth 8000 in
/-- C3, evaluated at the failing input: after a block containing
alice's nonce-1 transaction has been added (chain height 2), her
pending transaction carries nonce 2 — exactly
`last applied nonce + 1` — yet `mine_block` rejects it and fails with
`EmptyBlock`, because its local `expected_nonce` map restarts at zero
on every call instead of at the last applied nonce. -/
theorem mine_block_nonce_restart_bug :
    c3run.map (fun s =>
      (s.chain.length, s.pending.map Transaction.nonce, (mine_block "p" 4 s).1)) =
    some (2, [2], Except.error MineErr.emptyBlock) := by decide

/-! ## C10: missing sender wallet inflates the supply -/

/-- C10: if `add_block` accepts a block whose single transaction names
a sender with no wallet, the debit is silently skipped while the
recipient is still credited in full: the call succeeds and the total
supply grows by the transferred amount. -/
theorem add_block_missing_sender_inflates (now : ℕ) (s : State) (b : Block)
    (t : Transaction) (tip : Block)
    (htip : s.chain.getLast? = some tip)
    (hidx : b.index = tip.index + 1)
    (hlink : b.prev_hash = tip.hash)
    (hhash : b.hash = calculate_block_hash b)
    (htxs : b.transactions = [t])
    (hfr : t.«from» ∉ s.wallets.dom)
    (hnd : s.wallets.dom.Nodup) :
    (add_block now s b).1 = none ∧
    sumBal (add_block now s b).2.wallets = sumBal s.wallets + t.amount := by
  unfold add_block
  rw [htip]
  dsimp only
  rw [if_neg (by omega : ¬ b.index ≠ tip.index + 1),
    if_neg (by simp [hlink] : ¬ b.prev_hash ≠ tip.hash),
    if_neg (by simp [hhash] : ¬ calculate_block_hash b ≠ b.hash)]
  dsimp only
  refine ⟨rfl, ?_⟩
  rw [htxs]
  rw [List.foldl_cons, List.foldl_nil]
  unfold applyTx
  dsimp only
  have hdeb : debitW now s.wallets t = s.wallets := by
    unfold debitW
    split <;> rename_i hsp
    · exact absurd ((SMap.lookup_eq_some.mp hsp).1) hfr
    · rfl
  rw [hdeb]
  exact creditW_sum now s.wallets t hnd

/-- The crafted block for the C10 witness: a transfer of 7 coins from
the walletless address "mallory" to "alice". -/
def c10blk : Block :=
  { index := 1, timestamp := 0,
    transactions := [⟨"mallory", "alice", 7, 1, 0, "tid0", "sig0", 1⟩],
    prev_hash := "genesis",
    hash := calculate_block_hash
      ⟨1, 0, [⟨"mallory", "alice", 7, 1, 0, "tid0", "sig0", 1⟩], "genesis", "",
        "p", "r"⟩,
    proposer := "p", state_root := "r" }

/-- C10 witness: against `{alice ↦ 5}` the crafted block is accepted
and the total supply rises from 5 to 12. -/
theorem add_block_missing_sender_inflates_witness :
    (add_block 0 (initState [("alice", 5)] 0) c10blk).1 = none ∧
    sumBal (add_block 0 (initState [("alice", 5)] 0) c10blk).2.wallets =
      sumBal (initState [("alice", 5)] 0).wallets + 7 :=
  add_block_missing_sender_inflates 0 (initState [("alice", 5)] 0) c10blk
    ⟨"mallory", "alice", 7, 1, 0, "tid0", "sig0", 1⟩ (genesisBlock 0)
    rfl rfl rfl rfl rfl (by decide) (by decide)

/-! ## C6: the fee formula

The `f64` computation `(amount as f64 * 0.01).ceil() as u64` is proved
to agree with exact integer arithmetic `max 1 (⌈amount / 100⌉)` for all
`0 < amount ≤ 10 ^ 12`. -/

theorem lg2fuel_spec : ∀ (f n : ℕ), 0 < n → n < 2 ^ f →
    2 ^ lg2fuel n f ≤ n ∧ n < 2 ^ (lg2fuel n f + 1) := by
  intro f
  induction f with
  | zero =>
    intro n h0 h1
    rw [pow_zero] at h1
    omega
  | succ f ih =>
    intro n h0 h1
    unfold lg2fuel
    split <;> rename_i hle
    · have hn1 : n = 1 := by omega
      subst hn1
      norm_num
    · have hhalf : 0 < n / 2 := by omega
      have hlt : n / 2 < 2 ^ f := by
        rw [pow_succ] at h1
        omega
      obtain ⟨ha, hb⟩ := ih (n / 2) hhalf hlt
      set l := lg2fuel (n / 2) f with hl
      have e1 : (2:ℕ) ^ (l + 1) = 2 * 2 ^ l := by ring
      have e2 : (2:ℕ) ^ (l + 1 + 1) = 4 * 2 ^ l := by ring
      rw [e1, e2]
      rw [e1] at hb
      omega

theorem lg2_spec (n : ℕ) (h0 : 0 < n) (h : n < 2 ^ 128) :
    2 ^ lg2 n ≤ n ∧ n < 2 ^ (lg2 n + 1) := lg2fuel_spec 128 n h0 h

theorem lg2_eq_of (n m : ℕ) (h1 : 2 ^ m ≤ n) (h2 : n < 2 ^ (m + 1))
    (h128 : n < 2 ^ 128) : lg2 n = m := by
  have h0 : 0 < n := lt_of_lt_of_le (by positivity) h1
  obtain ⟨ha, hb⟩ := lg2_spec n h0 h128
  have c1 : (2:ℕ) ^ lg2 n < 2 ^ (m + 1) := lt_of_le_of_lt ha h2
  have c2 : (2:ℕ) ^ m < 2 ^ (lg2 n + 1) := lt_of_le_of_lt h1 hb
  have d1 := (Nat.pow_lt_pow_iff_right (by norm_num)).mp c1
  have d2 := (Nat.pow_lt_pow_iff_right (by norm_num)).mp c2
  omega

/-- The rounded value differs from the input by at most half an ulp. -/
theorem rn53_bounds (P : ℕ) (hP : 2 ^ 53 ≤ P) (h128 : P < 2 ^ 128) :
    P ≤ rn53 P + 2 ^ (lg2 P - 53) ∧ rn53 P ≤ P + 2 ^ (lg2 P - 53) := by
  have hl53 : 53 ≤ lg2 P := by
    by_contra hc
    push_neg at hc
    obtain ⟨ha, hb⟩ := lg2_spec P (by omega) h128
    have : P < 2 ^ 53 :=
      lt_of_lt_of_le hb (Nat.pow_le_pow_right (by norm_num) (by omega))
    omega
  unfold rn53
  rw [if_neg (by omega)]
  dsimp only
  obtain ⟨k', hk'⟩ : ∃ k', lg2 P - 52 = k' + 1 := ⟨lg2 P - 53, by omega⟩
  have hke : lg2 P - 53 = k' := by omega
  rw [hk', hke]
  have hpow : (2:ℕ) ^ (k' + 1) = 2 * 2 ^ k' := by ring
  have hpow1 : (2:ℕ) ^ (k' + 1 - 1) = 2 ^ k' := by norm_num
  rw [hpow, hpow1]
  have hdm : P % (2 * 2 ^ k') < 2 * 2 ^ k' := Nat.mod_lt _ (by positivity)
  have hdiv := Nat.div_add_mod P (2 * 2 ^ k')
  generalize hA : (2:ℕ) ^ k' = A at *
  generalize hqd : P / (2 * A) = q at *
  generalize hrd : P % (2 * A) = r at *
  have hx : 2 * A * q = q * (2 * A) := by ring
  rw [hx] at hdiv
  split <;> rename_i hc1
  · constructor <;> omega
  · split <;> rename_i hc2
    · have hx2 : (q + 1) * (2 * A) = q * (2 * A) + 2 * A := by ring
      rw [hx2]
      constructor <;> omega
    · split <;> rename_i hc3
      · constructor <;> omega
      · have hx2 : (q + 1) * (2 * A) = q * (2 * A) + 2 * A := by ring
        rw [hx2]
        constructor <;> omega

/-- Products of multiples of 100 round down exactly: the rounding error
`12 j` is under half an ulp, and `j * 2 ^ 59` is representable. -/
theorem rn53_mul100 (j : ℕ) (hj1 : 1 ≤ j) (hj : j ≤ 10 ^ 10) :
    rn53 (100 * j * f64c) = j * 2 ^ 59 := by
  have hc : 100 * f64c = 2 ^ 59 + 12 := by norm_num [f64c]
  have hP : 100 * j * f64c = j * 2 ^ 59 + 12 * j := by
    calc 100 * j * f64c = j * (100 * f64c) := by ring
    _ = j * 2 ^ 59 + 12 * j := by rw [hc]; ring
  have hj128 : j < 2 ^ 128 := by
    calc j ≤ 10 ^ 10 := hj
    _ < 2 ^ 128 := by norm_num
  obtain ⟨hja, hjb⟩ := lg2_spec j (by omega) hj128
  set L := lg2 j with hL
  have hpow1 : (2:ℕ) ^ (L + 1) = 2 * 2 ^ L := by ring
  rw [hpow1] at hjb
  have h12 : 12 * j < 2 ^ 59 := by
    have : 12 * j ≤ 12 * 10 ^ 10 := by omega
    have h2 : 12 * 10 ^ 10 < 2 ^ 59 := by norm_num
    omega
  have hPl : lg2 (100 * j * f64c) = L + 59 := by
    apply lg2_eq_of
    · rw [hP]
      calc (2:ℕ) ^ (L + 59) = 2 ^ L * 2 ^ 59 := by rw [pow_add]
      _ ≤ j * 2 ^ 59 := Nat.mul_le_mul_right _ hja
      _ ≤ j * 2 ^ 59 + 12 * j := by omega
    · rw [hP]
      have e : (2:ℕ) ^ (L + 59 + 1) = (2 * 2 ^ L) * 2 ^ 59 := by ring
      rw [e]
      have h1 : j + 1 ≤ 2 * 2 ^ L := hjb
      calc j * 2 ^ 59 + 12 * j < j * 2 ^ 59 + 2 ^ 59 := by omega
      _ = (j + 1) * 2 ^ 59 := by ring
      _ ≤ (2 * 2 ^ L) * 2 ^ 59 := Nat.mul_le_mul_right _ h1
    · rw [hP]
      have hb1 : j * 2 ^ 59 ≤ 10 ^ 10 * 2 ^ 59 := Nat.mul_le_mul_right _ hj
      have hb2 : 10 ^ 10 * 2 ^ 59 + 12 * 10 ^ 10 < 2 ^ 128 := by norm_num
      omega
  have hL33 : L ≤ 33 := by
    have hx : (2:ℕ) ^ L < 2 ^ 34 := by
      calc (2:ℕ) ^ L ≤ j := hja
      _ ≤ 10 ^ 10 := hj
      _ < 2 ^ 34 := by norm_num
    have := (Nat.pow_lt_pow_iff_right (by norm_num : (1:ℕ) < 2)).mp hx
    omega
  unfold rn53
  rw [if_neg]
  swap
  · push_neg
    rw [hP]
    have : (2:ℕ) ^ 53 ≤ 2 ^ 59 := by norm_num
    have h59 : (2:ℕ) ^ 59 ≤ j * 2 ^ 59 := by
      calc (2:ℕ) ^ 59 = 1 * 2 ^ 59 := by ring
      _ ≤ j * 2 ^ 59 := Nat.mul_le_mul_right _ hj1
    omega
  dsimp only
  rw [hPl]
  have hke : L + 59 - 52 = L + 7 := by omega
  rw [hke]
  have hdvd : (2:ℕ) ^ (L + 7) ∣ j * 2 ^ 59 :=
    Dvd.dvd.mul_left (pow_dvd_pow 2 (by omega)) j
  have e128 : (2:ℕ) ^ (L + 7) = 128 * 2 ^ L := by ring
  have e64 : (2:ℕ) ^ (L + 7 - 1) = 64 * 2 ^ L := by
    have : L + 7 - 1 = L + 6 := by omega
    rw [this]; ring
  have h12small : 12 * j < 2 ^ (L + 7) := by
    rw [e128]; omega
  have h12half : 12 * j < 2 ^ (L + 7 - 1) := by
    rw [e64]; omega
  obtain ⟨c, hcq⟩ := hdvd
  have hr : (j * 2 ^ 59 + 12 * j) % 2 ^ (L + 7) = 12 * j := by
    rw [hcq, Nat.mul_add_mod]
    exact Nat.mod_eq_of_lt h12small
  have hquot : (j * 2 ^ 59 + 12 * j) / 2 ^ (L + 7) = c := by
    rw [hcq, Nat.mul_add_div (by positivity),
      Nat.div_eq_of_lt h12small, Nat.add_zero]
  rw [hP, hr, hquot, if_pos h12half, mul_comm]
  exact hcq.symm

/-- For amounts that are not multiples of 100, the rounded product
stays strictly between the neighbouring multiples of `2 ^ 59`, because
the distance to either is far larger than half an ulp (at most
`2 ^ 39` here). -/
theorem rn53_notmul (a j sr : ℕ) (ha : a = 100 * j + sr) (hsr1 : 1 ≤ sr)
    (hsr99 : sr ≤ 99) (hj : j ≤ 10 ^ 10) (ha2 : 2 ≤ a) (hamax : a ≤ 10 ^ 12) :
    j * 2 ^ 59 < rn53 (a * f64c) ∧ rn53 (a * f64c) < (j + 1) * 2 ^ 59 := by
  have hc : 100 * f64c = 2 ^ 59 + 12 := by norm_num [f64c]
  have hP : a * f64c = j * 2 ^ 59 + (12 * j + sr * f64c) := by
    subst ha
    calc (100 * j + sr) * f64c = j * (100 * f64c) + sr * f64c := by ring
    _ = _ := by rw [hc]; ring
  have hP53 : 2 ^ 53 ≤ a * f64c := by
    calc (2:ℕ) ^ 53 ≤ 2 * f64c := by norm_num [f64c]
    _ ≤ a * f64c := Nat.mul_le_mul_right _ ha2
  have hPcap : a * f64c ≤ 10 ^ 12 * f64c := Nat.mul_le_mul_right _ hamax
  have hP128 : a * f64c < 2 ^ 128 := by
    have : (10:ℕ) ^ 12 * f64c < 2 ^ 128 := by norm_num [f64c]
    omega
  obtain ⟨hb1, hb2⟩ := rn53_bounds (a * f64c) hP53 hP128
  have hl92 : lg2 (a * f64c) ≤ 92 := by
    obtain ⟨hla, hlb⟩ := lg2_spec (a * f64c) (by omega) hP128
    have hx : (2:ℕ) ^ lg2 (a * f64c) < 2 ^ 93 := by
      have : (10:ℕ) ^ 12 * f64c < 2 ^ 93 := by norm_num [f64c]
      omega
    have := (Nat.pow_lt_pow_iff_right (by norm_num : (1:ℕ) < 2)).mp hx
    omega
  have herr : (2:ℕ) ^ (lg2 (a * f64c) - 53) ≤ 2 ^ 39 :=
    Nat.pow_le_pow_right (by norm_num) (by omega)
  have hfc : (2:ℕ) ^ 39 < f64c := by norm_num [f64c]
  have hlow : j * 2 ^ 59 + f64c ≤ a * f64c := by
    have hsf : f64c ≤ sr * f64c := Nat.le_mul_of_pos_left _ (by omega)
    omega
  have hup : a * f64c + 2 ^ 39 < (j + 1) * 2 ^ 59 := by
    have h1 : sr * f64c ≤ 99 * f64c := Nat.mul_le_mul_right _ hsr99
    have h2 : 12 * j ≤ 12 * 10 ^ 10 := by omega
    have e : (j + 1) * 2 ^ 59 = j * 2 ^ 59 + 2 ^ 59 := by ring
    have h3 : 12 * 10 ^ 10 + 99 * f64c + 2 ^ 39 < 2 ^ 59 := by norm_num [f64c]
    omega
  constructor <;> omega

/-- C6 core: the `f64` fee computation agrees with exact integer
arithmetic on the whole validated range. -/
theorem feeOf_eq (a : ℕ) (h0 : 0 < a) (hcap : a ≤ 10 ^ 12) :
    feeOf a = max 1 ((a + 99) / 100) := by
  by_cases h100 : a % 100 = 0
  · set j := a / 100 with hj
    have ha : 100 * j = a := by omega
    have hj1 : 1 ≤ j := by omega
    have hjm : j ≤ 10 ^ 10 := by omega
    unfold feeOf
    rw [← ha, rn53_mul100 j hj1 hjm]
    have hdv : (j * 2 ^ 59 + (2 ^ 59 - 1)) / 2 ^ 59 = j := by
      rw [mul_comm, Nat.mul_add_div (by positivity), Nat.div_eq_of_lt (by omega),
        Nat.add_zero]
    rw [hdv]
    have hrr : (100 * j + 99) / 100 = j := by omega
    rw [hrr]
    exact (max_eq_right hj1).symm
  · by_cases ha1 : a = 1
    · subst ha1; decide
    · have ha2 : 2 ≤ a := by omega
      have hmain := rn53_notmul a (a / 100) (a % 100) (by omega) (by omega)
        (by omega) (by omega) ha2 hcap
      unfold feeOf
      have hB : (2:ℕ) ^ 59 = 576460752303423488 := by norm_num
      have hdiv : (rn53 (a * f64c) + (2 ^ 59 - 1)) / 2 ^ 59 = a / 100 + 1 := by
        apply Nat.div_eq_of_lt_le
        · have := hmain.1
          have e : (a / 100 + 1) * 2 ^ 59 = a / 100 * 2 ^ 59 + 2 ^ 59 := by ring
          omega
        · have := hmain.2
          have e : (a / 100 + 1 + 1) * 2 ^ 59 = (a / 100 + 1) * 2 ^ 59 + 2 ^ 59 := by
            ring
          omega
      rw [hdiv]
      have hrr : (a + 99) / 100 = a / 100 + 1 := by omega
      rw [hrr]
      exact (max_eq_right (by omega)).symm

/-- C6: for every accepted amount (`0 < amount ≤ 10 ^ 12`) the fee of
the created transaction equals `max 1 ⌈amount / 100⌉` in exact integer
arithmetic (the `f64` computation introduces no deviation on this
range), and — with the sender's wallet present — `create_transaction`
fails with `InsufficientFunds` exactly when the sender's balance is
below `amount + fee`. -/
theorem fee_formula_and_insufficient_funds (a : ℕ) (h0 : 0 < a)
    (hcap : a ≤ 10 ^ 12) (s : State) (now : ℕ) (fr toAddr : String) (w : Wallet)
    (hw : s.wallets.lookup fr = some w) :
    feeOf a = max 1 ((a + 99) / 100) ∧
    ((create_transaction s now fr toAddr a).1 = Except.error CreateErr.insufficientFunds ↔
      w.balance < a + feeOf a) := by
  refine ⟨feeOf_eq a h0 hcap, ?_⟩
  unfold create_transaction
  rw [if_neg (by omega), hw]
  dsimp only
  split <;> rename_i hbal
  · simp [hbal]
  · simp [hbal]

/-- C6 witness: amount 150 against a balance of 10 — the fee is 2 and
the call fails with `InsufficientFunds` since `10 < 150 + 2`. -/
theorem fee_formula_and_insufficient_funds_witness :
    feeOf 150 = max 1 ((150 + 99) / 100) ∧
    ((create_transaction (initState [("alice", 10)] 0) 0 "alice" "bob" 150).1 =
        Except.error CreateErr.insufficientFunds ↔
      (10:ℕ) < 150 + feeOf 150) :=
  fee_formula_and_insufficient_funds 150 (by norm_num) (by norm_num)
    (initState [("alice", 10)] 0) 0 "alice" "bob" ⟨"alice", 10, 0, 0, 0⟩ (by decide)

/-! ## C1: conservation of supply -/

theorem wVal_eq_balance (w : SMap Wallet) (x : String) (hx : x ∈ w.dom) :
    wVal w x = (w.get x).balance := by
  unfold wVal
  rw [if_pos hx]

/-- The heart of conservation: applying the transactions selected by
the mining fold to the very wallet map whose balances seeded the shadow
map reproduces the shadow balances, destroys exactly the selected fees,
and only grows the wallet set. -/
theorem mineApply (now : ℕ) (b : Block) :
    ∀ (pending : List Transaction) (temp : SMap ℕ) (nn : String → ℕ)
      (w : SMap Wallet) (ti : SMap (List TransactionIndex)),
      w.dom.Nodup →
      (∀ t ∈ pending, t.«from» ∈ w.dom) →
      (∀ x, tVal temp x = wVal w x) →
      (∀ x, tVal (mineFold pending temp nn).2 x =
        wVal ((mineFold pending temp nn).1.foldl (applyTx now b) (w, ti)).1 x) ∧
      sumBal ((mineFold pending temp nn).1.foldl (applyTx now b) (w, ti)).1 +
        ((mineFold pending temp nn).1.map Transaction.fee).sum = sumBal w ∧
      (∀ x, x ∈ w.dom →
        x ∈ ((mineFold pending temp nn).1.foldl (applyTx now b) (w, ti)).1.dom) ∧
      ((mineFold pending temp nn).1.foldl (applyTx now b) (w, ti)).1.dom.Nodup := by
  intro pending
  induction pending with
  | nil =>
    intro temp nn w ti hnd hsend hview
    exact ⟨hview, by simp [mineFold], fun x hx => hx, hnd⟩
  | cons t rest ih =>
    intro temp nn w ti hnd hsend hview
    have hfr : t.«from» ∈ w.dom := hsend t (List.mem_cons_self t rest)
    have hrest : ∀ u ∈ rest, u.«from» ∈ w.dom :=
      fun u hu => hsend u (List.mem_cons_of_mem t hu)
    rw [show mineFold (t :: rest) temp nn =
        (if verify_signature t = false then mineFold rest temp nn
        else if t.nonce ≠ nn t.«from» + 1 then mineFold rest temp nn
        else if tVal temp t.«from» < t.amount + t.fee then
          mineFold rest temp (Function.update nn t.«from» t.nonce)
        else
          let temp1 := temp.insert t.«from» (tVal temp t.«from» - (t.amount + t.fee))
          let temp2 := temp1.insert t.«to» (tVal temp1 t.«to» + t.amount)
          let r := mineFold rest temp2 (Function.update nn t.«from» t.nonce)
          (t :: r.1, r.2)) from rfl]
    split
    · exact ih temp nn w ti hnd hrest hview
    · split
      · exact ih temp nn w ti hnd hrest hview
      · split <;> rename_i hbal
        · exact ih temp (Function.update nn t.«from» t.nonce) w ti hnd hrest hview
        · -- accepted transaction
          dsimp only
          push_neg at hbal
          have hsuf : t.amount + t.fee ≤ (w.get t.«from»).balance := by
            rw [← wVal_eq_balance w _ hfr, ← hview]
            exact hbal
          set w1 := debitW now w t with hw1
          set w' := creditW now w1 t with hw'
          have hdom1 : w1.dom = w.dom := debitW_dom now w t
          have hnd1 : w1.dom.Nodup := hdom1 ▸ hnd
          have hnd' : w'.dom.Nodup := creditW_nodup now w1 t hnd1
          have hmono : ∀ x, x ∈ w.dom → x ∈ w'.dom := by
            intro x hx
            exact creditW_dom_mono now w1 t x (hdom1 ▸ hx)
          -- the first-component of the applyTx step is w'
          have happ : ∀ z : SMap Wallet × SMap (List TransactionIndex),
              z.1 = w → (applyTx now b z t).1 = w' := by
            intro z hz
            unfold applyTx
            dsimp only
            rw [hz]
          -- intermediate view after the debit
          have hview1 : ∀ x, tVal (temp.insert t.«from»
              (tVal temp t.«from» - (t.amount + t.fee))) x = wVal w1 x := by
            intro x
            rw [tVal_insert, hw1, debitW_wVal now w t hfr x]
            by_cases hx : x = t.«from»
            · rw [if_pos hx, if_pos hx, hview t.«from», wVal_eq_balance w _ hfr]
            · rw [if_neg hx, if_neg hx, hview x]
          -- view after the credit
          have hview2 : ∀ x, tVal ((temp.insert t.«from»
              (tVal temp t.«from» - (t.amount + t.fee))).insert t.«to»
                (tVal (temp.insert t.«from»
                  (tVal temp t.«from» - (t.amount + t.fee))) t.«to» + t.amount)) x =
              wVal w' x := by
            intro x
            rw [tVal_insert, hw', creditW_wVal now w1 t x]
            by_cases hx : x = t.«to»
            · rw [if_pos hx, if_pos hx, hview1 t.«to»]
            · rw [if_neg hx, if_neg hx, hview1 x]
          have hsum1 : sumBal w1 + (t.amount + t.fee) = sumBal w :=
            debitW_sum now w t hfr hnd hsuf
          have hsum' : sumBal w' = sumBal w1 + t.amount :=
            creditW_sum now w1 t hnd1
          have hrest' : ∀ u ∈ rest, u.«from» ∈ w'.dom :=
            fun u hu => hmono _ (hrest u hu)
          obtain ⟨ihview, ihsum, ihmono, ihnd⟩ :=
            ih _ (Function.update nn t.«from» t.nonce) w'
              (applyTx now b (w, ti) t).2 hnd' hrest' hview2
          rw [List.foldl_cons]
          have hz1 : applyTx now b (w, ti) t =
              (w', (applyTx now b (w, ti) t).2) := by
            have := happ (w, ti) rfl
            exact Prod.ext this rfl
          rw [hz1]
          refine ⟨ihview, ?_, fun x hx => ihmono x (hmono x hx), ihnd⟩
          rw [List.map_cons, List.sum_cons]
          omega

/-- The state invariant carried along operation sequences: duplicate-free
wallet keys, every pending sender has a wallet, and the chain is
nonempty (genesis is always there). -/
def StInv (s : State) : Prop :=
  s.wallets.dom.Nodup ∧ (∀ t ∈ s.pending, t.«from» ∈ s.wallets.dom) ∧ s.chain ≠ []

theorem chainFees_append (c : List Block) (b : Block) :
    chainFees (c ++ [b]) = chainFees c + (b.transactions.map Transaction.fee).sum := by
  unfold chainFees
  rw [List.map_append, List.sum_append]
  simp

theorem stepOp_conserve (s : State) (now : ℕ) (op : Op) (s' : State)
    (hinv : StInv s) (h : stepOp s (now, op) = some s') :
    StInv s' ∧
    sumBal s'.wallets + chainFees s'.chain = sumBal s.wallets + chainFees s.chain := by
  obtain ⟨hnd, hsend, hchain⟩ := hinv
  cases op with
  | create fr toAddr a =>
    simp only [stepOp] at h
    split at h <;> rename_i hcr
    · -- create_transaction succeeded
      rename_i r s1
      injection h with h
      subst h
      unfold create_transaction at hcr
      split at hcr
      · exact absurd ((Prod.mk.injEq _ _ _ _).mp hcr).1 (by simp)
      · split at hcr <;> rename_i hlook
        · exact absurd ((Prod.mk.injEq _ _ _ _).mp hcr).1 (by simp)
        · rename_i sw
          dsimp only at hcr
          split at hcr
          · exact absurd ((Prod.mk.injEq _ _ _ _).mp hcr).1 (by simp)
          · have hs1 := ((Prod.mk.injEq _ _ _ _).mp hcr).2
            rw [← hs1]
            obtain ⟨hfr, _⟩ := SMap.lookup_eq_some.mp hlook
            split <;> rename_i hto
            · -- recipient wallet created with balance 0
              have hnm : toAddr ∉ s.wallets.dom := by
                rw [Option.isNone_iff_eq_none] at hto
                exact SMap.lookup_eq_none.mp hto
              refine ⟨⟨SMap.insert_dom_nodup _ _ _ hnd, ?_, hchain⟩, ?_⟩
              · intro t ht
                dsimp only at ht
                rcases List.mem_append.mp ht with hold | hnew
                · rw [SMap.mem_insert_dom]
                  exact Or.inr (hsend t hold)
                · rw [List.mem_singleton.mp hnew]
                  dsimp only
                  rw [SMap.mem_insert_dom]
                  exact Or.inr hfr
              · dsimp only
                rw [sumBal_insert_not_mem s.wallets toAddr _ hnm]
                simp
            · refine ⟨⟨hnd, ?_, hchain⟩, rfl⟩
              intro t ht
              dsimp only at ht
              rcases List.mem_append.mp ht with hold | hnew
              · exact hsend t hold
              · rw [List.mem_singleton.mp hnew]
                exact hfr
    · exact Option.noConfusion h
  | mineAdd p =>
    simp only [stepOp] at h
    split at h <;> rename_i hmine
    · rename_i b s1
      -- dissect the successful mine
      unfold mine_block at hmine
      split at hmine
      · exact absurd ((Prod.mk.injEq _ _ _ _).mp hmine).1 (by simp)
      · dsimp only at hmine
        split at hmine <;> rename_i hvalid
        · exact absurd ((Prod.mk.injEq _ _ _ _).mp hmine).1 (by simp)
        · split at hmine <;> rename_i htip
          · exact absurd ((Prod.mk.injEq _ _ _ _).mp hmine).1 (by simp)
          · rename_i tip
            obtain ⟨hbeq, hs1⟩ := (Prod.mk.injEq _ _ _ _).mp hmine
            have hb := Except.ok.inj hbeq
            -- dissect the successful add
            split at h <;> rename_i hadd
            · rename_i s2
              injection h with h
              subst h
              unfold add_block at hadd
              rw [← hs1] at hadd
              dsimp only at hadd
              rw [htip] at hadd
              dsimp only at hadd
              split at hadd
              · exact absurd ((Prod.mk.injEq _ _ _ _).mp hadd).1 (by simp)
              · split at hadd
                · exact absurd ((Prod.mk.injEq _ _ _ _).mp hadd).1 (by simp)
                · split at hadd
                  · exact absurd ((Prod.mk.injEq _ _ _ _).mp hadd).1 (by simp)
                  · have hs2 := ((Prod.mk.injEq _ _ _ _).mp hadd).2
                    rw [← hs2]
                    dsimp only
                    have htx : b.transactions =
                        (mineFold s.pending
                          ⟨s.wallets.dom, fun a => (s.wallets.get a).balance⟩
                          fun _ => 0).1 := by
                      rw [← hb]
                    rw [htx]
                    have hview0 : ∀ x,
                        tVal ⟨s.wallets.dom, fun a => (s.wallets.get a).balance⟩ x =
                        wVal s.wallets x := fun x => rfl
                    obtain ⟨_, hsum, _, hndz⟩ :=
                      mineApply now b s.pending
                        ⟨s.wallets.dom, fun a => (s.wallets.get a).balance⟩
                        (fun _ => 0) s.wallets s.tx_index hnd hsend hview0
                    refine ⟨⟨hndz, by simp, by simp⟩, ?_⟩
                    rw [chainFees_append, htx]
                    omega
            · exact Option.noConfusion h
    · exact Option.noConfusion h

theorem initFold_wallet_facts (now : ℕ) :
    ∀ (l : List (String × ℕ)) (st : State),
      st.wallets.dom.Nodup → (l.map Prod.fst).Nodup →
      (∀ p ∈ l, p.1 ∉ st.wallets.dom) →
      sumBal (l.foldl (initStep now) st).wallets =
        sumBal st.wallets + (l.map Prod.snd).sum ∧
      (l.foldl (initStep now) st).wallets.dom.Nodup := by
  intro l
  induction l with
  | nil =>
    intro st h1 _ _
    exact ⟨by simp, h1⟩
  | cons q r ihp =>
    intro st h1 h2 h3
    rw [List.foldl_cons]
    have hq : q.1 ∉ st.wallets.dom := h3 q (List.mem_cons_self q r)
    have hsum : sumBal (initStep now st q).wallets = sumBal st.wallets + q.2 := by
      have := sumBal_insert_not_mem st.wallets q.1 ⟨q.1, q.2, 0, now, now⟩ hq
      simpa [initStep] using this
    have hnd' : (initStep now st q).wallets.dom.Nodup :=
      SMap.insert_dom_nodup _ _ _ h1
    rw [List.map_cons, List.nodup_cons] at h2
    have h3' : ∀ p ∈ r, p.1 ∉ (initStep now st q).wallets.dom := by
      intro p hp hmem
      rw [show (initStep now st q).wallets = st.wallets.insert q.1 ⟨q.1, q.2, 0, now, now⟩
        from rfl, SMap.mem_insert_dom] at hmem
      rcases hmem with he | hm
      · exact h2.1 (he ▸ List.mem_map_of_mem Prod.fst hp)
      · exact h3 p (List.mem_cons_of_mem q hp) hm
    obtain ⟨ih1, ih2⟩ := ihp (initStep now st q) hnd' h2.2 h3'
    refine ⟨?_, ih2⟩
    rw [ih1, hsum, List.map_cons, List.sum_cons]
    omega

theorem runOps_conserve :
    ∀ (ops : List (ℕ × Op)) (s0 s1 : State), StInv s0 →
      runOps s0 ops = some s1 →
      sumBal s1.wallets + chainFees s1.chain =
        sumBal s0.wallets + chainFees s0.chain := by
  intro ops
  induction ops with
  | nil =>
    intro s0 s1 _ h
    rw [show runOps s0 [] = some s0 from rfl] at h
    injection h with h
    rw [h]
  | cons op rest ihp =>
    obtain ⟨now, o⟩ := op
    intro s0 s1 hinv h
    rw [show runOps s0 ((now, o) :: rest) =
      (match stepOp s0 (now, o) with
        | some s' => runOps s' rest
        | none => none) from rfl] at h
    split at h <;> rename_i hstep
    · rename_i s'
      obtain ⟨hinv', hcons⟩ := stepOp_conserve s0 now o s' hinv hstep
      have := ihp s' s1 hinv' h
      omega
    · exact Option.noConfusion h

/-- C1: conservation of supply.  Starting from `new(initial_balances)`,
after any sequence of successful `create_transaction` calls and
successful `mine_block` + `add_block` pairs (of the mined block), the
sum of all wallet balances equals the initial total minus the fees of
every transaction included in the applied blocks (fees are destroyed;
no proposer is credited). -/
theorem conservation_of_supply (ib : List (String × ℕ)) (t0 : ℕ)
    (ops : List (ℕ × Op)) (s : State)
    (hnd : (ib.map Prod.fst).Nodup)
    (h : runOps (initState ib t0) ops = some s) :
    sumBal s.wallets + chainFees s.chain = (ib.map Prod.snd).sum := by
  have hwini : (initState ib t0).wallets = (ib.foldl (initStep t0)
      { chain := [genesisBlock t0]
        wallets := SMap.empty default
        tx_index := SMap.empty []
        pending := []
        nonces := SMap.empty 0
        store := fun _ => none }).wallets := rfl
  obtain ⟨hisum, hind⟩ := initFold_wallet_facts t0 ib
    { chain := [genesisBlock t0]
      wallets := SMap.empty default
      tx_index := SMap.empty []
      pending := []
      nonces := SMap.empty 0
      store := fun _ => none }
    List.nodup_nil hnd (fun p _ hmem => List.not_mem_nil p.1 hmem)
  obtain ⟨hchain, hpend⟩ := initState_def ib t0
  have hinv : StInv (initState ib t0) := by
    refine ⟨hwini ▸ hind, ?_, ?_⟩
    · intro t ht
      rw [hpend] at ht
      exact absurd ht (List.not_mem_nil t)
    · rw [hchain]
      simp
  have hrun := runOps_conserve ops (initState ib t0) s hinv h
  have hfees0 : chainFees (initState ib t0).chain = 0 := by
    rw [hchain]
    simp [chainFees, genesisBlock]
  have hsum0 : sumBal (initState ib t0).wallets = (ib.map Prod.snd).sum := by
    rw [hwini, hisum]
    simp [sumBal, SMap.empty]
  omega

def c1ops : List (ℕ × Op) := [(1, Op.create "alice" "bob" 100), (2, Op.mineAdd "p")]

set_option maxRecDepth 8000 in
/-- C1 witness: one transfer of 100 (fee 1) from alice's initial 1000,
mined and applied; balances sum to 999 and fees to 1. -/
theorem conservation_of_supply_witness :
    sumBal ((runOps (initState [("alice", 1000)] 0) c1ops).getD
      (initState [("alice", 1000)] 0)).wallets +
    chainFees ((runOps (initState [("alice", 1000)] 0) c1ops).getD
      (initState [("alice", 1000)] 0)).chain = 1000 := by
  have h : runOps (initState [("alice", 1000)] 0) c1ops =
      some ((runOps (initState [("alice", 1000)] 0) c1ops).getD
        (initState [("alice", 1000)] 0)) := rfl
  have hc := conservation_of_supply [("alice", 1000)] 0 c1ops _ (by decide) h
  simpa using hc
